import Mathlib

/-!
Shallow embedding of the AsyncMux M:N async-generator multiplexer
(src/index.ts) as a small-step state machine over explicitly scheduled
cooperative tasks (input pumps and output consumers), together with
proofs and refutations of the specified properties.

Correspondence to the source:
- Msg models the union type T | typeof StopSymbol flowing through queues.
- Channel models the closure state created by one call to AsyncMux.out():
  the local queue array (enq is the full enqueue history and pos the number
  of entries already shifted, so the live queue is enq.drop pos), whether
  the AsyncQueue is still a member of this.queues (registered), and whether
  the outputGen generator has finished (terminated).  birth records the
  length of the broadcast history at registration time (a ghost field).
- Pump models the async IIFE spawned by AsyncMux.in(): remaining is what
  the producer has yet to yield, fails records that the producer throws
  after its last yield, produced is a ghost list of items already pushed.
- Mux models the AsyncMux instance fields stopFlag, inputCount, queues
  (the channels list with their registered flags) plus the ghost broadcast
  history hist recording every pushInternal call in order.
- One Ev is one cooperatively scheduled step: a pump iteration, one
  dequeue by an output's consumer, a consumer abandoning its loop, or one
  of the public method calls.
-/

namespace AsyncMux

/-- An entry of an output queue: a payload item or the StopSymbol. -/
inductive Msg (α : Type) where
  | item : α → Msg α
  | stopSig : Msg α
deriving DecidableEq, Repr

/-- The payload items of a list of queue entries, StopSymbol filtered out. -/
def itemsOf {α : Type} (l : List (Msg α)) : List α :=
  l.filterMap (fun m => match m with | .item a => some a | .stopSig => none)

/-- State of one output created by AsyncMux.out(): the closure variables of
outputGen together with membership in the mux's queues set. -/
structure Channel (α : Type) where
  enq : List (Msg α)
  pos : Nat
  registered : Bool
  terminated : Bool
  birth : Nat
deriving DecidableEq, Repr

/-- The live contents of the output's local queue array. -/
def Channel.buffer {α : Type} (c : Channel α) : List (Msg α) := c.enq.drop c.pos

/-- The sequence of items the output's consumer has observed so far. -/
def Channel.observed {α : Type} (c : Channel α) : List α := itemsOf (c.enq.take c.pos)

/-- State of one input pump spawned by AsyncMux.in(). -/
structure Pump (α : Type) where
  produced : List α
  remaining : List α
  fails : Bool
  alive : Bool
deriving DecidableEq, Repr

/-- State of the whole AsyncMux instance. -/
structure Mux (α : Type) where
  stopFlag : Bool
  inputCount : Nat
  pumps : List (Pump α)
  channels : List (Channel α)
  hist : List (Msg α)
deriving DecidableEq, Repr

/-- A freshly constructed mux. -/
def initMux {α : Type} : Mux α :=
  { stopFlag := false, inputCount := 0, pumps := [], channels := [], hist := [] }

/-- AsyncMux.pushInternal: for each queue in this.queues, q.push(item).
Only registered channels receive the entry; the ghost history records it. -/
def pushInternal {α : Type} (m : Msg α) (s : Mux α) : Mux α :=
  { s with
    channels := s.channels.map
      (fun c => if c.registered then { c with enq := c.enq ++ [m] } else c),
    hist := s.hist ++ [m] }

/-- AsyncMux.push: broadcasts the item; the source has no stopped check. -/
def pushOp {α : Type} (a : α) (s : Mux α) : Mux α := pushInternal (Msg.item a) s

/-- AsyncMux.stop: sets stopFlag unconditionally, then broadcasts StopSymbol
to every registered channel (no already-stopped check in the source). -/
def stopOp {α : Type} (s : Mux α) : Mux α :=
  pushInternal Msg.stopSig { s with stopFlag := true }

/-- AsyncMux.out: creates a fresh channel (empty queue) and adds it to
this.queues.  No stopped check exists in the source. -/
def outOp {α : Type} (s : Mux α) : Mux α :=
  { s with channels := s.channels ++
      [{ enq := [], pos := 0, registered := true, terminated := false,
         birth := s.hist.length }] }

/-- The stop handle returned by out(): pushItem(StopSymbol) on that output's
local queue.  It writes the closure's queue directly, so it reaches the
channel even after the channel left this.queues. -/
def outStopOp {α : Type} (i : Nat) (s : Mux α) : Mux α :=
  match s.channels[i]? with
  | none => s
  | some c => { s with channels := s.channels.set i { c with enq := c.enq ++ [Msg.stopSig] } }

/-- AsyncMux.in: increments inputCount and spawns the pump task.  The
producer is abstracted as the list it will yield plus whether it then
throws.  The source method returns void, reflected by the Unit component;
it performs no stopped check. -/
def inOp {α : Type} (s : Mux α) (items : List α) (fl : Bool) : Mux α × Unit :=
  ({ s with
      inputCount := s.inputCount + 1,
      pumps := s.pumps ++ [{ produced := [], remaining := items, fails := fl, alive := true }] },
   ())

/-- The epilogue of the pump IIFE after its for-await loop ends without a
throw: this.inputCount--; if (this.inputCount === 0) this.stop(). -/
def finishEpilogue {α : Type} (s : Mux α) : Mux α :=
  let s' := { s with inputCount := s.inputCount - 1 }
  if s'.inputCount = 0 then stopOp s' else s'

/-- Replace pump i. -/
def setPump {α : Type} (i : Nat) (p : Pump α) (s : Mux α) : Mux α :=
  { s with pumps := s.pumps.set i p }

/-- One scheduled iteration of pump i's for-await loop.  Pulling the next
item comes first; with an item in hand the loop checks stopFlag and either
breaks (running the epilogue, the pulled item dropped) or pushes the item.
When the producer is exhausted, a failing producer throws: the IIFE's
promise rejects and nothing after the loop runs (inputCount is not
decremented); otherwise the epilogue runs. -/
def pumpStep {α : Type} (i : Nat) (s : Mux α) : Mux α :=
  match s.pumps[i]? with
  | none => s
  | some p =>
    if p.alive = false then s
    else
      match p.remaining with
      | [] =>
        if p.fails = true then setPump i { p with alive := false } s
        else finishEpilogue (setPump i { p with alive := false } s)
      | x :: rest =>
        if s.stopFlag = true then
          finishEpilogue (setPump i { p with remaining := rest, alive := false } s)
        else
          pushOp x (setPump i { p with produced := p.produced ++ [x], remaining := rest } s)

/-- One scheduled step of output i's drain loop (outputGen).  The while
condition (this.inputCount > 0 || queue.length > 0) is checked first: when
false the loop exits and this.queues.delete runs.  Otherwise pull: with an
empty queue the consumer suspends (no state change); a StopSymbol at the
front is shifted off and breaks the loop (then this.queues.delete runs); an
item at the front is shifted off and yielded. -/
def consumeStep {α : Type} [DecidableEq α] (i : Nat) (s : Mux α) : Mux α :=
  match s.channels[i]? with
  | none => s
  | some c =>
    if c.terminated = true then s
    else if s.inputCount = 0 ∧ c.buffer = [] then
      { s with channels := s.channels.set i { c with terminated := true, registered := false } }
    else
      match c.buffer with
      | [] => s
      | Msg.stopSig :: _ =>
        { s with channels :=
            s.channels.set i { c with pos := c.pos + 1, terminated := true, registered := false } }
      | Msg.item _ :: _ =>
        { s with channels := s.channels.set i { c with pos := c.pos + 1 } }

/-- The consumer of output i abandons the drain loop (an early break or an
exception thrown downstream while the generator is suspended at yield).
The generator completes without executing the code after the loop, so
this.queues.delete(asyncQueue) is skipped: registered is left as it was. -/
def abortStep {α : Type} (i : Nat) (s : Mux α) : Mux α :=
  match s.channels[i]? with
  | none => s
  | some c =>
    if c.terminated = true then s
    else { s with channels := s.channels.set i { c with terminated := true } }

/-- AsyncMux.readerCount. -/
def readerCount {α : Type} (s : Mux α) : Nat := s.inputCount

/-- AsyncMux.writerCount: this.queues.size. -/
def writerCount {α : Type} (s : Mux α) : Nat :=
  (s.channels.filter (fun c => c.registered)).length

/-- One cooperatively scheduled event. -/
inductive Ev (α : Type) where
  | pump : Nat → Ev α
  | consume : Nat → Ev α
  | abort : Nat → Ev α
  | push : α → Ev α
  | stop : Ev α
  | out : Ev α
  | input : List α → Bool → Ev α
  | outStop : Nat → Ev α

/-- Interpret one event on the mux state. -/
def step {α : Type} [DecidableEq α] (e : Ev α) (s : Mux α) : Mux α :=
  match e with
  | .pump i => pumpStep i s
  | .consume i => consumeStep i s
  | .abort i => abortStep i s
  | .push a => pushOp a s
  | .stop => stopOp s
  | .out => outOp s
  | .input l fl => (inOp s l fl).fst
  | .outStop i => outStopOp i s

/-- Run a schedule of events. -/
def run {α : Type} [DecidableEq α] (tr : List (Ev α)) (s : Mux α) : Mux α :=
  tr.foldl (fun s e => step e s) s

/-- Whether an event is a pure pump or consumer scheduling step (no public
method call interleaved). -/
def isPC {α : Type} : Ev α → Bool
  | .pump _ => true
  | .consume _ => true
  | _ => false

/-- A fresh mux on which every producer of prods is registered by in() with
a non-throwing producer, then nouts outputs are registered by out(), before
any pump or consumer task runs. -/
def setup {α : Type} [DecidableEq α] (prods : List (List α)) (nouts : Nat) : Mux α :=
  run (prods.map (fun l => Ev.input l false) ++ List.replicate nouts Ev.out) initMux

/-- A terminated channel c evolved into c': its consumer is still finished,
its consumed position is unchanged and so is the consumed prefix of its
queue history, hence its observed item sequence is unchanged. -/
def FrozenAt {α : Type} (c c' : Channel α) : Prop :=
  c'.terminated = true ∧ c'.pos = c.pos ∧
  c'.enq.take c'.pos = c.enq.take c.pos ∧ c'.pos ≤ c'.enq.length

/-- No-backfill invariant: every channel's queue only ever received
messages broadcast at or after the channel's registration point. -/
def GInv {α : Type} (s : Mux α) : Prop :=
  ∀ c ∈ s.channels, c.birth ≤ s.hist.length ∧
    (itemsOf c.enq).Sublist (itemsOf (s.hist.drop c.birth))

/-- Invariant for schedules consisting purely of pump and consumer steps
over a mux prepared by setup prods nouts: inputCount counts the live
pumps; the stop flag can only have been raised by stop-on-drain, with the
stop signal as the final broadcast; each pump has pushed exactly its
produced prefix in order; channels still draining mirror the broadcast
history, and channels whose consumer finished observed every broadcast
item. -/
structure C1Inv {α : Type} (prods : List (List α)) (s : Mux α) : Prop where
  count_eq : s.inputCount = (s.pumps.filter (fun p => p.alive)).length
  stop_zero : s.stopFlag = true → s.inputCount = 0
  no_sig : s.stopFlag = false → Msg.stopSig ∉ s.hist
  sig_last : s.stopFlag = true →
    ∃ h0, s.hist = h0 ++ [Msg.stopSig] ∧ Msg.stopSig ∉ h0
  prod_sub : ∀ p ∈ s.pumps, p.produced.Sublist (itemsOf s.hist)
  prod_orig : s.pumps.map (fun p => p.produced ++ p.remaining) = prods
  no_fail : ∀ p ∈ s.pumps, p.fails = false
  dead_done : ∀ p ∈ s.pumps, p.alive = false → p.remaining = []
  chan_live : ∀ c ∈ s.channels, c.terminated = false →
    c.registered = true ∧ c.enq = s.hist ∧ c.pos ≤ c.enq.length ∧
    Msg.stopSig ∉ c.enq.take c.pos
  chan_done : ∀ c ∈ s.channels, c.terminated = true →
    itemsOf (c.enq.take c.pos) = itemsOf s.hist ∧ s.inputCount = 0

/-- C2.  A producer that yields 1, 2 and then throws: the pump's exception
is not caught at the pump boundary (in() has no try/catch).  The two items
do reach the output, but inputCount is never decremented, so the mux never
drains: the output's consumer is permanently suspended (consumeStep is a
no-op on the drained queue) and its sequence never terminates, refuting the
claim that the mux and all outputs are left fully functional. -/
theorem asyncmux_c2_producer_error_not_contained :
    (∀ p ∈ (run [Ev.pump 0, Ev.pump 0, Ev.pump 0, Ev.consume 0, Ev.consume 0]
        (outOp (inOp (initMux : Mux Nat) [1, 2] true).fst)).pumps, p.alive = false) ∧
    (run [Ev.pump 0, Ev.pump 0, Ev.pump 0, Ev.consume 0, Ev.consume 0]
        (outOp (inOp (initMux : Mux Nat) [1, 2] true).fst)).inputCount = 1 ∧
    (∀ c ∈ (run [Ev.pump 0, Ev.pump 0, Ev.pump 0, Ev.consume 0, Ev.consume 0]
        (outOp (inOp (initMux : Mux Nat) [1, 2] true).fst)).channels,
      c.observed = [1, 2] ∧ c.terminated = false) ∧
    consumeStep 0 (run [Ev.pump 0, Ev.pump 0, Ev.pump 0, Ev.consume 0, Ev.consume 0]
        (outOp (inOp (initMux : Mux Nat) [1, 2] true).fst)) =
      run [Ev.pump 0, Ev.pump 0, Ev.pump 0, Ev.consume 0, Ev.consume 0]
        (outOp (inOp (initMux : Mux Nat) [1, 2] true).fst) := by
  decide

/-- C3.  Registering after stop does not fail and is not a no-op: on a
stopped mux, in() still increments inputCount and spawns a live pump, and
out() still adds a channel to the queues set (writerCount becomes 1).  The
source contains no stopped check and no error path in either method. -/
theorem asyncmux_c3_register_after_stop_succeeds :
    (stopOp (initMux : Mux Nat)).stopFlag = true ∧
    ((inOp (stopOp (initMux : Mux Nat)) [1, 2, 3] false).fst.inputCount = 1) ∧
    ((inOp (stopOp (initMux : Mux Nat)) [1, 2, 3] false).fst.pumps.map
        (fun p => p.alive) = [true]) ∧
    writerCount (outOp (stopOp (initMux : Mux Nat))) = 1 := by
  decide

/-- C5.  stop() is not idempotent: on a mux with one registered output, the
second stop() call pushes a second StopSymbol into the output's queue (a
re-broadcast of the close signal), so the state after two calls differs
from the state after one. -/
theorem asyncmux_c5_double_stop_rebroadcasts :
    (stopOp (outOp (initMux : Mux Nat))).channels.map Channel.enq = [[Msg.stopSig]] ∧
    (stopOp (stopOp (outOp (initMux : Mux Nat)))).channels.map Channel.enq =
      [[Msg.stopSig, Msg.stopSig]] ∧
    stopOp (stopOp (outOp (initMux : Mux Nat))) ≠ stopOp (outOp (initMux : Mux Nat)) := by
  decide

/-- C6.  push() after stop() is not a silent no-op: it appends the item to
the registered output's queue, changing the channel's buffer from
StopSymbol alone to StopSymbol followed by the item. -/
theorem asyncmux_c6_push_after_stop_mutates :
    (stopOp (outOp (initMux : Mux Nat))).stopFlag = true ∧
    (stopOp (outOp (initMux : Mux Nat))).channels.map Channel.enq = [[Msg.stopSig]] ∧
    (pushOp 42 (stopOp (outOp (initMux : Mux Nat)))).channels.map Channel.enq =
      [[Msg.stopSig, Msg.item 42]] ∧
    pushOp 42 (stopOp (outOp (initMux : Mux Nat))) ≠ stopOp (outOp (initMux : Mux Nat)) := by
  decide

/-- C7.  When the consumer abandons the drain loop after one item (early
break or downstream exception), the generator finishes without running the
queues.delete line after the loop: the channel's consumer sequence is over
(terminated) yet the channel is still registered in the queues set
(writerCount stays 1), refuting cleanup on every exit path. -/
theorem asyncmux_c7_abort_skips_cleanup :
    (abortStep 0 (consumeStep 0 (pushOp 1 (outOp (initMux : Mux Nat))))).channels.map
        (fun c => (c.terminated, c.registered)) = [(true, true)] ∧
    writerCount (abortStep 0 (consumeStep 0 (pushOp 1 (outOp (initMux : Mux Nat))))) = 1 := by
  decide

/-- C8.  in() returns void: the second component of inOp is the unit value,
not a cancellation function, and the pump state carries no cancelled flag
that any returned handle could set. -/
theorem asyncmux_c8_in_returns_unit :
    (inOp (initMux : Mux Nat) [1, 2, 3] false).snd = () := by
  rfl

/-- C1 counterexample.  An output registered after the input produced its
first item but before the input completed (the pump is still alive at
registration) misses that first item: the input produced 1 then 2, every
pump completed and every consumer terminated, yet the output observed only
2, so the sequence 1, 2 does not embed in its observed sequence. -/
theorem asyncmux_c1_counterexample :
    (∀ p ∈ (run [Ev.pump 0] (setup [[1, 2]] 0) : Mux Nat).pumps, p.alive = true) ∧
    (∀ p ∈ (run [Ev.pump 0, Ev.pump 0, Ev.consume 0, Ev.consume 0]
        (outOp (run [Ev.pump 0] (setup [[1, 2]] 0))) : Mux Nat).pumps,
      p.alive = false ∧ p.produced = [1, 2]) ∧
    (∀ c ∈ (run [Ev.pump 0, Ev.pump 0, Ev.consume 0, Ev.consume 0]
        (outOp (run [Ev.pump 0] (setup [[1, 2]] 0))) : Mux Nat).channels,
      c.terminated = true) ∧
    ¬ (∀ c ∈ (run [Ev.pump 0, Ev.pump 0, Ev.consume 0, Ev.consume 0]
        (outOp (run [Ev.pump 0] (setup [[1, 2]] 0))) : Mux Nat).channels,
      List.Sublist [1, 2] c.observed) := by
  decide

/-- C4 counterexample.  A schedule containing no stop event: one input
yielding 5 runs to completion.  Its pump's termination sets the stopped
flag and broadcasts the close signal into the registered output's queue,
refuting the claim that a terminating pump performs no further action on
the multiplexer. -/
theorem asyncmux_c4_counterexample :
    (run [Ev.pump 0, Ev.pump 0] (setup [[5]] 1) : Mux Nat).stopFlag = true ∧
    (run [Ev.pump 0, Ev.pump 0] (setup [[5]] 1) : Mux Nat).channels.map Channel.enq =
      [[Msg.item 5, Msg.stopSig]] ∧
    (∀ p ∈ (run [Ev.pump 0, Ev.pump 0] (setup [[5]] 1) : Mux Nat).pumps,
      p.alive = false) := by
  decide

/-- Helper: setting an index to the value it already holds is the identity. -/
theorem set_getElem_self {β : Type} (l : List β) (i : Nat) (a : β)
    (h : l[i]? = some a) : l.set i a = l := by
  induction l generalizing i with
  | nil => simp at h
  | cons x xs ih =>
    cases i with
    | zero => simp at h; simp [List.set, h]
    | succ j => simp at h; simp [List.set, ih j h]

/-- C4 amended.  When a pump's producer completes normally, the pump does
act on the multiplexer: it decrements inputCount, and when it was the last
live input it calls stop(), setting the stopped flag and broadcasting the
close signal (automatic stop-on-drain); with other inputs still live the
flag and the broadcast history are untouched. -/
theorem asyncmux_c4_auto_stop_on_drain {α : Type} [DecidableEq α]
    (s : Mux α) (i : Nat) (p : Pump α)
    (hp : s.pumps[i]? = some p) (ha : p.alive = true) (hr : p.remaining = [])
    (hf : p.fails = false) :
    (pumpStep i s).inputCount = s.inputCount - 1 ∧
    (s.inputCount = 1 →
      (pumpStep i s).stopFlag = true ∧ (pumpStep i s).hist = s.hist ++ [Msg.stopSig]) ∧
    (2 ≤ s.inputCount →
      (pumpStep i s).stopFlag = s.stopFlag ∧ (pumpStep i s).hist = s.hist) := by
  simp only [pumpStep, hp, ha, hr, hf]
  by_cases hc : s.inputCount - 1 = 0
  · simp only [finishEpilogue, setPump, stopOp, pushInternal, hc]
    refine ⟨hc.symm ▸ rfl, fun _ => ⟨rfl, rfl⟩, fun h2 => ?_⟩
    omega
  · simp only [finishEpilogue, setPump, hc]
    refine ⟨rfl, fun h1 => ?_, fun _ => ⟨rfl, rfl⟩⟩
    omega

/-- C4 amended witness at a concrete input: a mux with a single registered
pump over an already-exhausted producer. -/
theorem asyncmux_c4_auto_stop_on_drain_witness :
    ((inOp (initMux : Mux Nat) [] false).fst.pumps[0]? =
      some { produced := [], remaining := [], fails := false, alive := true }) ∧
    ((pumpStep 0 (inOp (initMux : Mux Nat) [] false).fst).inputCount =
      (inOp (initMux : Mux Nat) [] false).fst.inputCount - 1 ∧
    ((inOp (initMux : Mux Nat) [] false).fst.inputCount = 1 →
      (pumpStep 0 (inOp (initMux : Mux Nat) [] false).fst).stopFlag = true ∧
      (pumpStep 0 (inOp (initMux : Mux Nat) [] false).fst).hist =
        (inOp (initMux : Mux Nat) [] false).fst.hist ++ [Msg.stopSig]) ∧
    (2 ≤ (inOp (initMux : Mux Nat) [] false).fst.inputCount →
      (pumpStep 0 (inOp (initMux : Mux Nat) [] false).fst).stopFlag =
        (inOp (initMux : Mux Nat) [] false).fst.stopFlag ∧
      (pumpStep 0 (inOp (initMux : Mux Nat) [] false).fst).hist =
        (inOp (initMux : Mux Nat) [] false).fst.hist)) :=
  ⟨by decide,
   asyncmux_c4_auto_stop_on_drain (inOp (initMux : Mux Nat) [] false).fst 0
     { produced := [], remaining := [], fails := false, alive := true }
     (by decide) (by decide) (by decide) (by decide)⟩

theorem FrozenAt.trans {α : Type} {a b c : Channel α}
    (h1 : FrozenAt a b) (h2 : FrozenAt b c) : FrozenAt a c :=
  ⟨h2.1, h2.2.1.trans h1.2.1, by rw [h2.2.2.1, h1.2.2.1], h2.2.2.2⟩

theorem FrozenAt.refl {α : Type} {c : Channel α}
    (ht : c.terminated = true) (hp : c.pos ≤ c.enq.length) : FrozenAt c c :=
  ⟨ht, rfl, rfl, hp⟩

theorem frozen_pushInternal {α : Type} (m : Msg α) (s : Mux α) (i : Nat) (c : Channel α)
    (h : s.channels[i]? = some c) (ht : c.terminated = true) (hp : c.pos ≤ c.enq.length) :
    ∃ c', (pushInternal m s).channels[i]? = some c' ∧ FrozenAt c c' := by
  by_cases hr : c.registered = true
  · refine ⟨{ c with enq := c.enq ++ [m] }, ?_, ht, rfl,
      List.take_append_of_le_length hp, ?_⟩
    · simp only [pushInternal, List.getElem?_map, h, Option.map_some']
      simp [hr]
    · simp only [List.length_append, List.length_cons, List.length_nil]
      omega
  · refine ⟨c, ?_, FrozenAt.refl ht hp⟩
    simp only [pushInternal, List.getElem?_map, h, Option.map_some']
    simp [hr]

theorem finishEpilogue_frozen {α : Type} (s : Mux α) (i : Nat) (c : Channel α)
    (h : s.channels[i]? = some c) (ht : c.terminated = true) (hp : c.pos ≤ c.enq.length) :
    ∃ c', (finishEpilogue s).channels[i]? = some c' ∧ FrozenAt c c' := by
  simp only [finishEpilogue]
  split
  · exact frozen_pushInternal Msg.stopSig _ i c h ht hp
  · exact ⟨c, h, FrozenAt.refl ht hp⟩

theorem consumeStep_eq_of_terminated {α : Type} [DecidableEq α]
    (i : Nat) (s : Mux α) (c : Channel α)
    (h : s.channels[i]? = some c) (ht : c.terminated = true) : consumeStep i s = s := by
  simp [consumeStep, h, ht]

theorem abortStep_eq_of_terminated {α : Type} (i : Nat) (s : Mux α) (c : Channel α)
    (h : s.channels[i]? = some c) (ht : c.terminated = true) : abortStep i s = s := by
  simp [abortStep, h, ht]

theorem consumeStep_getElem_ne {α : Type} [DecidableEq α] (j i : Nat) (s : Mux α)
    (hij : j ≠ i) : (consumeStep j s).channels[i]? = s.channels[i]? := by
  unfold consumeStep
  cases hj : s.channels[j]? with
  | none => rfl
  | some d =>
    by_cases ht : d.terminated = true
    · simp [ht]
    · simp only [ht]
      by_cases hz : s.inputCount = 0 ∧ d.buffer = []
      · simp [hz, List.getElem?_set_ne hij]
      · simp only [hz]
        cases hb : d.buffer with
        | nil => simp
        | cons m rest =>
          cases m <;> simp [List.getElem?_set_ne hij]

theorem abortStep_getElem_ne {α : Type} (j i : Nat) (s : Mux α)
    (hij : j ≠ i) : (abortStep j s).channels[i]? = s.channels[i]? := by
  unfold abortStep
  cases hj : s.channels[j]? with
  | none => rfl
  | some d =>
    by_cases ht : d.terminated = true
    · simp [ht]
    · simp [ht, List.getElem?_set_ne hij]

/-- One event cannot disturb a terminated channel's observations: its
consumer stays finished, its consumed position and consumed queue prefix
are unchanged. -/
theorem frozen_step {α : Type} [DecidableEq α] (e : Ev α) (s : Mux α) (i : Nat) (c : Channel α)
    (h : s.channels[i]? = some c) (ht : c.terminated = true) (hp : c.pos ≤ c.enq.length) :
    ∃ c', (step e s).channels[i]? = some c' ∧ FrozenAt c c' := by
  have hi : i < s.channels.length := (List.getElem?_eq_some.mp h).1
  cases e with
  | push a => exact frozen_pushInternal (Msg.item a) s i c h ht hp
  | stop => exact frozen_pushInternal Msg.stopSig { s with stopFlag := true } i c h ht hp
  | out =>
    refine ⟨c, ?_, FrozenAt.refl ht hp⟩
    show (outOp s).channels[i]? = some c
    rw [outOp]
    exact (List.getElem?_append_left hi).trans h
  | input l fl => exact ⟨c, h, FrozenAt.refl ht hp⟩
  | abort j =>
    by_cases hij : j = i
    · subst hij
      rw [show step (Ev.abort j) s = abortStep j s from rfl,
        abortStep_eq_of_terminated j s c h ht]
      exact ⟨c, h, FrozenAt.refl ht hp⟩
    · exact ⟨c, by rw [show step (Ev.abort j) s = abortStep j s from rfl,
        abortStep_getElem_ne j i s hij]; exact h, FrozenAt.refl ht hp⟩
  | consume j =>
    by_cases hij : j = i
    · subst hij
      rw [show step (Ev.consume j) s = consumeStep j s from rfl,
        consumeStep_eq_of_terminated j s c h ht]
      exact ⟨c, h, FrozenAt.refl ht hp⟩
    · exact ⟨c, by rw [show step (Ev.consume j) s = consumeStep j s from rfl,
        consumeStep_getElem_ne j i s hij]; exact h, FrozenAt.refl ht hp⟩
  | outStop j =>
    show ∃ c', (outStopOp j s).channels[i]? = some c' ∧ FrozenAt c c'
    unfold outStopOp
    cases hj : s.channels[j]? with
    | none => exact ⟨c, h, FrozenAt.refl ht hp⟩
    | some d =>
      by_cases hij : j = i
      · subst hij
        have hdc : d = c := by rw [h] at hj; exact (Option.some_inj.mp hj).symm
        subst hdc
        refine ⟨{ d with enq := d.enq ++ [Msg.stopSig] }, ?_, ht, rfl,
          List.take_append_of_le_length hp, ?_⟩
        · exact List.getElem?_set_self hi
        · simp only [List.length_append, List.length_cons, List.length_nil]
          omega
      · exact ⟨c, by simp [List.getElem?_set_ne hij, h], FrozenAt.refl ht hp⟩
  | pump j =>
    show ∃ c', (pumpStep j s).channels[i]? = some c' ∧ FrozenAt c c'
    unfold pumpStep
    cases hj : s.pumps[j]? with
    | none => exact ⟨c, h, FrozenAt.refl ht hp⟩
    | some p =>
      repeat' split
      all_goals
        first
          | exact ⟨c, h, FrozenAt.refl ht hp⟩
          | exact finishEpilogue_frozen _ i c h ht hp
          | exact frozen_pushInternal _ _ i c h ht hp

/-- A whole schedule cannot disturb a terminated channel's observations. -/
theorem frozen_run {α : Type} [DecidableEq α] (tr : List (Ev α)) (s : Mux α) (i : Nat)
    (c : Channel α) (h : s.channels[i]? = some c) (ht : c.terminated = true)
    (hp : c.pos ≤ c.enq.length) :
    ∃ c', (run tr s).channels[i]? = some c' ∧ FrozenAt c c' := by
  induction tr generalizing s c with
  | nil => exact ⟨c, h, FrozenAt.refl ht hp⟩
  | cons e rest ih =>
    obtain ⟨c1, h1, hf1⟩ := frozen_step e s i c h ht hp
    obtain ⟨c2, h2, hf2⟩ := ih (step e s) c1 h1 hf1.1 hf1.2.2.2
    exact ⟨c2, h2, FrozenAt.trans ⟨hf1.1, hf1.2.1, hf1.2.2.1, hf1.2.2.2⟩ hf2⟩

/-- C10.  When output i's queue is empty at the moment its consumer checks
the drain-loop condition while inputCount is zero, the consumer terminates
right there as a normal end of sequence (the channel is also removed from
the queues set), and no later event of any kind can extend the sequence it
observed: every item pushed afterwards is invisible to it. -/
theorem asyncmux_c10_normal_end_on_drain {α : Type} [DecidableEq α]
    (s : Mux α) (i : Nat) (c : Channel α)
    (h : s.channels[i]? = some c) (ht : c.terminated = false)
    (hin : s.inputCount = 0) (hbuf : c.buffer = []) (hpos : c.pos ≤ c.enq.length) :
    (∃ c', (consumeStep i s).channels[i]? = some c' ∧ c'.terminated = true ∧
      c'.registered = false ∧ c'.observed = c.observed) ∧
    ∀ tr : List (Ev α), ∃ c'', (run tr (consumeStep i s)).channels[i]? = some c'' ∧
      c''.terminated = true ∧ c''.observed = c.observed := by
  have hi : i < s.channels.length := (List.getElem?_eq_some.mp h).1
  have hstep : consumeStep i s =
      { s with channels := s.channels.set i { c with terminated := true, registered := false } } := by
    simp [consumeStep, h, ht, hin, hbuf]
  have hget : (consumeStep i s).channels[i]? =
      some { c with terminated := true, registered := false } := by
    rw [hstep]; exact List.getElem?_set_self hi
  constructor
  · exact ⟨_, hget, rfl, rfl, rfl⟩
  · intro tr
    obtain ⟨c'', h2, hf⟩ := frozen_run tr (consumeStep i s) i
      { c with terminated := true, registered := false } hget rfl hpos
    refine ⟨c'', h2, hf.1, ?_⟩
    show itemsOf (c''.enq.take c''.pos) = itemsOf (c.enq.take c.pos)
    rw [hf.2.2.1]

/-- C10 witness: a fresh mux with one output, zero inputs; the consumer's
first scheduling step terminates its sequence, and no schedule afterwards
changes what it observed. -/
theorem asyncmux_c10_normal_end_on_drain_witness :
    ((outOp (initMux : Mux Nat)).channels[0]? =
      some { enq := [], pos := 0, registered := true, terminated := false, birth := 0 }) ∧
    ((∃ c', (consumeStep 0 (outOp (initMux : Mux Nat))).channels[0]? = some c' ∧
        c'.terminated = true ∧ c'.registered = false ∧
        c'.observed = Channel.observed
          { enq := [], pos := 0, registered := true, terminated := false, birth := 0 }) ∧
      ∀ tr : List (Ev Nat), ∃ c'',
        (run tr (consumeStep 0 (outOp (initMux : Mux Nat)))).channels[0]? = some c'' ∧
        c''.terminated = true ∧
        c''.observed = Channel.observed
          { enq := [], pos := 0, registered := true, terminated := false, birth := 0 }) :=
  ⟨by decide,
   asyncmux_c10_normal_end_on_drain (outOp (initMux : Mux Nat)) 0
     { enq := [], pos := 0, registered := true, terminated := false, birth := 0 }
     (by decide) (by decide) (by decide) (by decide) (by decide)⟩

theorem itemsOf_append {α : Type} (a b : List (Msg α)) :
    itemsOf (a ++ b) = itemsOf a ++ itemsOf b :=
  List.filterMap_append a b _

theorem sublist_itemsOf_append {α : Type} {x y : List α} (t : List (Msg α))
    (h : x.Sublist y) (b : List (Msg α)) (hy : y = itemsOf b) :
    x.Sublist (itemsOf (b ++ t)) := by
  rw [itemsOf_append]
  exact (hy ▸ h).trans (List.sublist_append_left _ _)

theorem ginv_pushInternal {α : Type} (m : Msg α) (s : Mux α) (hg : GInv s) :
    GInv (pushInternal m s) := by
  intro c' hc'
  simp only [pushInternal] at hc' ⊢
  obtain ⟨c, hc, rfl⟩ := List.mem_map.mp hc'
  obtain ⟨hb, hs⟩ := hg c hc
  have hdrop : (s.hist ++ [m]).drop c.birth = s.hist.drop c.birth ++ [m] :=
    List.drop_append_of_le_length hb
  by_cases hr : c.registered = true
  · rw [if_pos hr]
    constructor
    · simp only [List.length_append]; omega
    · show (itemsOf (c.enq ++ [m])).Sublist (itemsOf ((s.hist ++ [m]).drop c.birth))
      rw [hdrop, itemsOf_append, itemsOf_append]
      exact List.Sublist.append hs (List.Sublist.refl _)
  · rw [if_neg hr]
    constructor
    · simp only [List.length_append]; omega
    · show (itemsOf c.enq).Sublist (itemsOf ((s.hist ++ [m]).drop c.birth))
      rw [hdrop, itemsOf_append]
      exact hs.trans (List.sublist_append_left _ _)

theorem ginv_finishEpilogue {α : Type} (s : Mux α) (hg : GInv s) :
    GInv (finishEpilogue s) := by
  simp only [finishEpilogue]
  split
  · exact ginv_pushInternal Msg.stopSig _ hg
  · exact hg

theorem ginv_set_preserving {α : Type} (s : Mux α) (i : Nat) (c c' : Channel α)
    (h : s.channels[i]? = some c) (henq : (itemsOf c'.enq).Sublist (itemsOf c.enq))
    (hbirth : c'.birth = c.birth) (hg : GInv s) :
    GInv { s with channels := s.channels.set i c' } := by
  intro d hd
  rcases List.mem_or_eq_of_mem_set hd with hmem | rfl
  · exact hg d hmem
  · obtain ⟨hb, hs⟩ := hg c (List.getElem?_mem h)
    exact ⟨hbirth ▸ hb, hbirth ▸ (henq.trans hs)⟩

theorem ginv_step {α : Type} [DecidableEq α] (e : Ev α) (s : Mux α) (hg : GInv s) :
    GInv (step e s) := by
  cases e with
  | push a => exact ginv_pushInternal (Msg.item a) s hg
  | stop => exact ginv_pushInternal Msg.stopSig { s with stopFlag := true } hg
  | input l fl => exact hg
  | out =>
    intro c hc
    rcases List.mem_append.mp hc with hmem | hnew
    · exact hg c hmem
    · rcases List.mem_singleton.mp hnew with rfl
      exact ⟨Nat.le_refl _, by simp [itemsOf, List.nil_sublist]⟩
  | outStop i =>
    show GInv (outStopOp i s)
    cases hj : s.channels[i]? with
    | none => simp only [outStopOp, hj]; exact hg
    | some c =>
      simp only [outStopOp, hj]
      refine ginv_set_preserving s i c _ hj ?_ rfl hg
      rw [itemsOf_append]
      simp [itemsOf, List.Sublist.refl]
  | abort i =>
    show GInv (abortStep i s)
    cases hj : s.channels[i]? with
    | none => simp only [abortStep, hj]; exact hg
    | some c =>
      simp only [abortStep, hj]
      by_cases ht : c.terminated = true
      · rw [if_pos ht]; exact hg
      · rw [if_neg ht]
        exact ginv_set_preserving s i c _ hj (List.Sublist.refl _) rfl hg
  | consume i =>
    show GInv (consumeStep i s)
    cases hj : s.channels[i]? with
    | none => simp only [consumeStep, hj]; exact hg
    | some c =>
      simp only [consumeStep, hj]
      by_cases ht : c.terminated = true
      · rw [if_pos ht]; exact hg
      · rw [if_neg ht]
        by_cases hz : s.inputCount = 0 ∧ c.buffer = []
        · rw [if_pos hz]
          exact ginv_set_preserving s i c _ hj (List.Sublist.refl _) rfl hg
        · rw [if_neg hz]
          cases hb : c.buffer with
          | nil => exact hg
          | cons m rest =>
            cases m with
            | stopSig => exact ginv_set_preserving s i c _ hj (List.Sublist.refl _) rfl hg
            | item a => exact ginv_set_preserving s i c _ hj (List.Sublist.refl _) rfl hg
  | pump i =>
    show GInv (pumpStep i s)
    cases hj : s.pumps[i]? with
    | none => simp only [pumpStep, hj]; exact hg
    | some p =>
      simp only [pumpStep, hj]
      repeat' split
      all_goals
        first
          | exact hg
          | exact ginv_finishEpilogue _ hg
          | exact ginv_pushInternal _ _ hg

theorem ginv_run {α : Type} [DecidableEq α] (tr : List (Ev α)) (s : Mux α) (hg : GInv s) :
    GInv (run tr s) := by
  induction tr generalizing s with
  | nil => exact hg
  | cons e rest ih => exact ih (step e s) (ginv_step e s hg)

/-- C9.  No backfill: running any schedule from a fresh mux, every
channel's observed sequence consists only of items broadcast at or after
the channel's registration point (c.birth counts the broadcasts that had
happened when out() created it), so an output created after k items were
broadcast observes none of those k items. -/
theorem asyncmux_c9_no_backfill {α : Type} [DecidableEq α]
    (tr : List (Ev α)) (c : Channel α) (hc : c ∈ (run tr initMux).channels) :
    c.observed.Sublist (itemsOf ((run tr initMux).hist.drop c.birth)) := by
  have hg : GInv (run tr initMux) :=
    ginv_run tr initMux (by intro c hc; simp [initMux] at hc)
  obtain ⟨_, hs⟩ := hg c hc
  have hobs : c.observed.Sublist (itemsOf c.enq) :=
    List.Sublist.filterMap _ (List.take_sublist c.pos c.enq)
  exact hobs.trans hs

/-- C9 witness: an output registered after two items were broadcast; it
observed the third item only, an embedding into the post-registration
broadcasts. -/
theorem asyncmux_c9_no_backfill_witness :
    (Channel.mk [Msg.item 3] 1 true false 2 : Channel Nat) ∈
      (run [Ev.push 1, Ev.push 2, Ev.out, Ev.push 3, Ev.consume 0] initMux).channels ∧
    (Channel.observed (Channel.mk [Msg.item 3] 1 true false 2)).Sublist
      (itemsOf ((run [Ev.push 1, Ev.push 2, Ev.out, Ev.push 3, Ev.consume 0]
          (initMux : Mux Nat)).hist.drop 2)) :=
  ⟨by decide,
   asyncmux_c9_no_backfill [Ev.push 1, Ev.push 2, Ev.out, Ev.push 3, Ev.consume 0]
     (Channel.mk [Msg.item 3] 1 true false 2) (by decide)⟩

theorem take_succ_of_drop_cons {β : Type} (l : List β) (p : Nat) (m : β) (r : List β)
    (h : l.drop p = m :: r) (hp : p ≤ l.length) :
    l.take (p + 1) = l.take p ++ [m] := by
  have hlen : (l.take p).length = p := by rw [List.length_take]; omega
  calc l.take (p + 1) = ((l.take p) ++ (m :: r)).take (p + 1) := by
        rw [← h, List.take_append_drop]
    _ = ((l.take p) ++ (m :: r)).take ((l.take p).length + 1) := by rw [hlen]
    _ = l.take p ++ (m :: r).take 1 := List.take_append 1
    _ = l.take p ++ [m] := rfl

theorem firstSplit {β : Type} (x : β) :
    ∀ (a c b : List β), a ++ x :: b = c ++ [x] → x ∉ a → x ∉ c → a = c ∧ b = [] := by
  intro a
  induction a with
  | nil =>
    intro c b heq hxa hxc
    cases c with
    | nil =>
      simp only [List.nil_append] at heq
      exact ⟨rfl, (List.cons.injEq x b x []).mp heq |>.2⟩
    | cons y c' =>
      simp only [List.nil_append, List.cons_append, List.cons.injEq] at heq
      exact absurd (heq.1 ▸ List.mem_cons_self y c') hxc
  | cons z a' ih =>
    intro c b heq hxa hxc
    cases c with
    | nil =>
      simp only [List.cons_append, List.nil_append, List.cons.injEq] at heq
      rcases heq with ⟨rfl, heq2⟩
      exact absurd heq2 (by simp)
    | cons y c' =>
      simp only [List.cons_append, List.cons.injEq] at heq
      rcases heq with ⟨rfl, heq2⟩
      have hxa' : x ∉ a' := fun hx => hxa (List.mem_cons_of_mem z hx)
      have hxc' : x ∉ c' := fun hx => hxc (List.mem_cons_of_mem z hx)
      obtain ⟨rfl, rfl⟩ := ih c' b heq2 hxa' hxc'
      exact ⟨rfl, rfl⟩

theorem filter_length_set_same {β : Type} (q : β → Bool) :
    ∀ (l : List β) (i : Nat) (a b : β), l[i]? = some a → q b = q a →
      ((l.set i b).filter q).length = (l.filter q).length := by
  intro l
  induction l with
  | nil => intro i a b h _; simp at h
  | cons x xs ih =>
    intro i a b h hq
    cases i with
    | zero =>
      simp only [List.getElem?_cons_zero, Option.some_inj] at h
      subst h
      simp only [List.set]
      rw [List.filter_cons, List.filter_cons, hq]
      cases hqx : q x <;> simp [hqx]
    | succ j =>
      simp only [List.getElem?_cons_succ] at h
      simp only [List.set]
      rw [List.filter_cons, List.filter_cons]
      have hx := ih j a b h hq
      cases hqx : q x <;> simp [hqx] <;> omega

theorem filter_length_set_dec {β : Type} (q : β → Bool) :
    ∀ (l : List β) (i : Nat) (a b : β), l[i]? = some a → q a = true → q b = false →
      ((l.set i b).filter q).length + 1 = (l.filter q).length := by
  intro l
  induction l with
  | nil => intro i a b h _ _; simp at h
  | cons x xs ih =>
    intro i a b h hqa hqb
    cases i with
    | zero =>
      simp only [List.getElem?_cons_zero, Option.some_inj] at h
      subst h
      simp only [List.set]
      rw [List.filter_cons, List.filter_cons, hqa, hqb]
      simp
    | succ j =>
      simp only [List.getElem?_cons_succ] at h
      simp only [List.set]
      rw [List.filter_cons, List.filter_cons]
      have hx := ih j a b h hqa hqb
      cases hqx : q x <;> simp [hqx] <;> omega

theorem filter_length_pos {β : Type} (q : β → Bool) (l : List β) (a : β)
    (ha : a ∈ l) (hq : q a = true) : 0 < (l.filter q).length := by
  have : a ∈ l.filter q := List.mem_filter.mpr ⟨ha, hq⟩
  exact List.length_pos.mpr (List.ne_nil_of_mem this)

theorem run_nil {α : Type} [DecidableEq α] (s : Mux α) : run [] s = s := rfl

theorem run_cons {α : Type} [DecidableEq α] (e : Ev α) (tr : List (Ev α)) (s : Mux α) :
    run (e :: tr) s = run tr (step e s) := rfl

theorem run_append {α : Type} [DecidableEq α] (a b : List (Ev α)) (s : Mux α) :
    run (a ++ b) s = run b (run a s) :=
  List.foldl_append _ _ a b

theorem run_inputs {α : Type} [DecidableEq α] :
    ∀ (ls : List (List α)) (s : Mux α),
      run (ls.map (fun l => Ev.input l false)) s =
        { s with inputCount := s.inputCount + ls.length,
                 pumps := s.pumps ++ ls.map (fun l => Pump.mk [] l false true) } := by
  intro ls
  induction ls with
  | nil => intro s; simp [run]
  | cons l rest ih =>
    intro s
    rw [List.map_cons, run_cons]
    show run (rest.map (fun l => Ev.input l false)) (inOp s l false).fst = _
    rw [ih]
    show ({ s with
        inputCount := s.inputCount + 1 + rest.length,
        pumps := (s.pumps ++ [Pump.mk [] l false true]) ++
          rest.map (fun l => Pump.mk [] l false true) } : Mux α) = _
    congr 1
    · simp only [List.length_cons]; omega
    · simp [List.append_assoc]

theorem run_outs {α : Type} [DecidableEq α] :
    ∀ (n : Nat) (s : Mux α),
      run (List.replicate n Ev.out) s =
        { s with channels := s.channels ++
            List.replicate n (Channel.mk [] 0 true false s.hist.length) } := by
  intro n
  induction n with
  | zero => intro s; simp [run]
  | succ k ih =>
    intro s
    rw [List.replicate_succ, run_cons]
    show run (List.replicate k Ev.out) (outOp s) = _
    rw [ih]
    show ({ s with
        channels := (s.channels ++ [Channel.mk [] 0 true false s.hist.length]) ++
          List.replicate k (Channel.mk [] 0 true false s.hist.length) } : Mux α) = _
    congr 1
    simp [List.append_assoc, List.replicate_succ]

theorem setup_eq {α : Type} [DecidableEq α] (prods : List (List α)) (nouts : Nat) :
    setup prods nouts =
      Mux.mk false prods.length (prods.map (fun l => Pump.mk [] l false true))
        (List.replicate nouts (Channel.mk [] 0 true false 0)) [] := by
  unfold setup
  rw [run_append, run_inputs, run_outs]
  simp [initMux]

theorem c1inv_setup {α : Type} [DecidableEq α] (prods : List (List α)) (nouts : Nat) :
    C1Inv prods (setup prods nouts) := by
  rw [setup_eq]
  constructor
  · show prods.length = _
    rw [List.filter_eq_self.mpr]
    · simp
    · intro p hp
      obtain ⟨l, _, rfl⟩ := List.mem_map.mp hp
      rfl
  · intro h; exact absurd h (by simp)
  · intro _; simp [List.not_mem_nil]
  · intro h; exact absurd h (by simp)
  · intro p hp
    obtain ⟨l, _, rfl⟩ := List.mem_map.mp hp
    exact List.nil_sublist _
  · show List.map _ (prods.map _) = prods
    rw [List.map_map]
    have hco : ((fun p : Pump α => p.produced ++ p.remaining) ∘
        (fun l : List α => Pump.mk [] l false true)) = fun l => l := by
      funext l; simp
    rw [hco]
    exact List.map_id prods
  · intro p hp
    obtain ⟨l, _, rfl⟩ := List.mem_map.mp hp
    rfl
  · intro p hp hdead
    obtain ⟨l, _, rfl⟩ := List.mem_map.mp hp
    exact absurd hdead (by simp)
  · intro c hc _
    rcases List.eq_of_mem_replicate hc with rfl
    exact ⟨rfl, rfl, Nat.le_refl _, by simp⟩
  · intro c hc hterm
    rcases List.eq_of_mem_replicate hc with rfl
    exact absurd hterm (by simp)

theorem itemsOf_sig_append {α : Type} (h : List (Msg α)) :
    itemsOf (h ++ [Msg.stopSig]) = itemsOf h := by
  rw [itemsOf_append]
  simp [itemsOf]

/-- A consumer scheduling step preserves the pump-and-consume invariant. -/
theorem c1inv_consume {α : Type} [DecidableEq α] {prods : List (List α)} {s : Mux α}
    (hI : C1Inv prods s) (i : Nat) : C1Inv prods (consumeStep i s) := by
  cases hj : s.channels[i]? with
  | none => simp only [consumeStep, hj]; exact hI
  | some c =>
    simp only [consumeStep, hj]
    by_cases ht : c.terminated = true
    · rw [if_pos ht]; exact hI
    · rw [if_neg ht]
      have htf : c.terminated = false := by revert ht; cases c.terminated <;> simp
      obtain ⟨hreg, henq, hpos, hnosig⟩ := hI.chan_live c (List.getElem?_mem hj) htf
      by_cases hz : s.inputCount = 0 ∧ c.buffer = []
      · rw [if_pos hz]
        have hple : c.enq.length ≤ c.pos := by
          have hb := hz.2
          rw [Channel.buffer] at hb
          exact List.drop_eq_nil_iff.mp hb
        have htake : c.enq.take c.pos = c.enq := List.take_of_length_le hple
        refine ⟨hI.count_eq, hI.stop_zero, hI.no_sig, hI.sig_last, hI.prod_sub,
          hI.prod_orig, hI.no_fail, hI.dead_done, ?_, ?_⟩
        · intro d hd hterm
          rcases List.mem_or_eq_of_mem_set hd with hmem | rfl
          · exact hI.chan_live d hmem hterm
          · exact absurd hterm (by simp)
        · intro d hd hterm
          rcases List.mem_or_eq_of_mem_set hd with hmem | rfl
          · exact hI.chan_done d hmem hterm
          · exact ⟨by rw [htake, henq], hz.1⟩
      · rw [if_neg hz]
        cases hb : c.buffer with
        | nil => exact hI
        | cons m rest =>
          rw [Channel.buffer] at hb
          cases m with
          | stopSig =>
            have hsig_enq : Msg.stopSig ∈ c.enq :=
              List.drop_subset c.pos c.enq (hb ▸ List.mem_cons_self _ _)
            have hsig_hist : Msg.stopSig ∈ s.hist := henq ▸ hsig_enq
            have hsf : s.stopFlag = true := by
              cases hsf' : s.stopFlag
              · exact absurd hsig_hist (hI.no_sig hsf')
              · rfl
            obtain ⟨h0, hh0, hnot0⟩ := hI.sig_last hsf
            have hdecomp : c.enq.take c.pos ++ Msg.stopSig :: rest = h0 ++ [Msg.stopSig] := by
              rw [← hb, List.take_append_drop, henq, hh0]
            obtain ⟨htppref, hrest⟩ :=
              firstSplit Msg.stopSig (c.enq.take c.pos) h0 rest hdecomp hnosig hnot0
            have htake1 : c.enq.take (c.pos + 1) = c.enq.take c.pos ++ [Msg.stopSig] :=
              take_succ_of_drop_cons c.enq c.pos Msg.stopSig rest hb hpos
            refine ⟨hI.count_eq, hI.stop_zero, hI.no_sig, hI.sig_last, hI.prod_sub,
              hI.prod_orig, hI.no_fail, hI.dead_done, ?_, ?_⟩
            · intro d hd hterm
              rcases List.mem_or_eq_of_mem_set hd with hmem | rfl
              · exact hI.chan_live d hmem hterm
              · exact absurd hterm (by simp)
            · intro d hd hterm
              rcases List.mem_or_eq_of_mem_set hd with hmem | rfl
              · exact hI.chan_done d hmem hterm
              · constructor
                · show itemsOf (c.enq.take (c.pos + 1)) = itemsOf s.hist
                  rw [htake1, itemsOf_sig_append, htppref, hh0, itemsOf_sig_append]
                · exact hI.stop_zero hsf
          | item a =>
            have hlt : c.pos < c.enq.length := by
              by_contra hge
              push_neg at hge
              rw [List.drop_eq_nil_of_le hge] at hb
              exact absurd hb (by simp)
            have htake1 : c.enq.take (c.pos + 1) = c.enq.take c.pos ++ [Msg.item a] :=
              take_succ_of_drop_cons c.enq c.pos (Msg.item a) rest hb hpos
            refine ⟨hI.count_eq, hI.stop_zero, hI.no_sig, hI.sig_last, hI.prod_sub,
              hI.prod_orig, hI.no_fail, hI.dead_done, ?_, ?_⟩
            · intro d hd hterm
              rcases List.mem_or_eq_of_mem_set hd with hmem | rfl
              · exact hI.chan_live d hmem hterm
              · refine ⟨hreg, henq, hlt, ?_⟩
                show Msg.stopSig ∉ c.enq.take (c.pos + 1)
                rw [htake1]
                intro hmem
                rcases List.mem_append.mp hmem with hmem1 | hmem2
                · exact hnosig hmem1
                · simp at hmem2
            · intro d hd hterm
              rcases List.mem_or_eq_of_mem_set hd with hmem | rfl
              · exact hI.chan_done d hmem hterm
              · exact absurd hterm (htf ▸ by simp [htf])

/-- A pump scheduling step preserves the pump-and-consume invariant. -/
theorem c1inv_pump {α : Type} [DecidableEq α] {prods : List (List α)} {s : Mux α}
    (hI : C1Inv prods s) (i : Nat) : C1Inv prods (pumpStep i s) := by
  cases hj : s.pumps[i]? with
  | none => simp only [pumpStep, hj]; exact hI
  | some p =>
    by_cases hal : p.alive = false
    · simp only [pumpStep, hj, hal, if_true]; exact hI
    · have halT : p.alive = true := by revert hal; cases p.alive <;> simp
      have hpmem : p ∈ s.pumps := List.getElem?_mem hj
      have hf : p.fails = false := hI.no_fail p hpmem
      have hjm : (s.pumps.map (fun q => q.produced ++ q.remaining))[i]? =
          some (p.produced ++ p.remaining) := by
        rw [List.getElem?_map, hj]; rfl
      have hcount_pos : 0 < s.inputCount := by
        rw [hI.count_eq]
        exact filter_length_pos _ _ p hpmem halT
      have hsf : s.stopFlag = false := by
        cases hsf' : s.stopFlag
        · rfl
        · exact absurd (hI.stop_zero hsf') (by omega)
      cases hrem : p.remaining with
      | cons x rest =>
        have hstep : pumpStep i s =
            Mux.mk s.stopFlag s.inputCount
              (s.pumps.set i (Pump.mk (p.produced ++ [x]) rest p.fails p.alive))
              (s.channels.map (fun c =>
                if c.registered then
                  Channel.mk (c.enq ++ [Msg.item x]) c.pos c.registered c.terminated c.birth
                else c))
              (s.hist ++ [Msg.item x]) := by
          simp [pumpStep, hj, hrem, halT, hsf, pushOp, pushInternal, setPump]
        rw [hstep]
        have hsame : ((s.pumps.set i
            (Pump.mk (p.produced ++ [x]) rest p.fails p.alive)).filter
              (fun q => q.alive)).length = (s.pumps.filter (fun q => q.alive)).length :=
          filter_length_set_same _ s.pumps i p _ hj rfl
        refine ⟨?_, ?_, ?_, ?_, ?_, ?_, ?_, ?_, ?_, ?_⟩
        · show s.inputCount = ((s.pumps.set i
            (Pump.mk (p.produced ++ [x]) rest p.fails p.alive)).filter
              (fun p => p.alive)).length
          rw [hsame]; exact hI.count_eq
        · intro h
          exact absurd (show s.stopFlag = true from h) (by rw [hsf]; simp)
        · intro _
          show Msg.stopSig ∉ s.hist ++ [Msg.item x]
          intro hmem
          rcases List.mem_append.mp hmem with h1 | h2
          · exact hI.no_sig hsf h1
          · simp at h2
        · intro h
          exact absurd (show s.stopFlag = true from h) (by rw [hsf]; simp)
        · intro q hq
          rcases List.mem_or_eq_of_mem_set hq with hmem | rfl
          · refine (hI.prod_sub q hmem).trans ?_
            show (itemsOf s.hist).Sublist (itemsOf (s.hist ++ [Msg.item x]))
            rw [itemsOf_append]
            exact List.sublist_append_left _ _
          · show (p.produced ++ [x]).Sublist (itemsOf (s.hist ++ [Msg.item x]))
            rw [itemsOf_append]
            exact List.Sublist.append (hI.prod_sub p hpmem) (List.Sublist.refl _)
        · show (List.map (fun q => q.produced ++ q.remaining)
            (s.pumps.set i (Pump.mk (p.produced ++ [x]) rest p.fails p.alive))) = prods
          rw [List.map_set]
          show (List.map (fun q => q.produced ++ q.remaining) s.pumps).set i
            ((p.produced ++ [x]) ++ rest) = prods
          have hfp : (p.produced ++ [x]) ++ rest = p.produced ++ p.remaining := by
            rw [hrem]; simp
          rw [hfp, set_getElem_self _ _ _ hjm]
          exact hI.prod_orig
        · intro q hq
          rcases List.mem_or_eq_of_mem_set hq with hmem | rfl
          · exact hI.no_fail q hmem
          · exact hf
        · intro q hq hdead
          rcases List.mem_or_eq_of_mem_set hq with hmem | rfl
          · exact hI.dead_done q hmem hdead
          · exact absurd (show p.alive = false from hdead) (by rw [halT]; simp)
        · intro d' hd' hterm
          obtain ⟨d, hd, rfl⟩ := List.mem_map.mp hd'
          by_cases hdr : d.registered = true
          · rw [if_pos hdr] at hterm ⊢
            have hdt : d.terminated = false := hterm
            obtain ⟨hreg, henq, hpos, hnosig⟩ := hI.chan_live d hd hdt
            refine ⟨hreg, ?_, ?_, ?_⟩
            · show d.enq ++ [Msg.item x] = s.hist ++ [Msg.item x]
              rw [henq]
            · show d.pos ≤ (d.enq ++ [Msg.item x]).length
              simp only [List.length_append]; omega
            · show Msg.stopSig ∉ (d.enq ++ [Msg.item x]).take d.pos
              rw [List.take_append_of_le_length hpos]
              exact hnosig
          · rw [if_neg hdr] at hterm ⊢
            have hdt : d.terminated = false := hterm
            obtain ⟨hreg, _, _, _⟩ := hI.chan_live d hd hdt
            exact absurd hreg hdr
        · intro d' hd' hterm
          obtain ⟨d, hd, rfl⟩ := List.mem_map.mp hd'
          have hdt : d.terminated = true := by
            by_cases hdr : d.registered = true
            · rw [if_pos hdr] at hterm; exact hterm
            · rw [if_neg hdr] at hterm; exact hterm
          exact absurd (hI.chan_done d hd hdt).2 (by omega)
      | nil =>
        by_cases hz : s.inputCount - 1 = 0
        · have hstep : pumpStep i s =
              Mux.mk true (s.inputCount - 1)
                (s.pumps.set i (Pump.mk p.produced [] p.fails false))
                (s.channels.map (fun c =>
                  if c.registered then
                    Channel.mk (c.enq ++ [Msg.stopSig]) c.pos c.registered c.terminated c.birth
                  else c))
                (s.hist ++ [Msg.stopSig]) := by
            simp [pumpStep, hj, hrem, halT, hf, finishEpilogue, hz, stopOp,
              pushInternal, setPump]
          rw [hstep]
          have hdec := filter_length_set_dec (fun q : Pump α => q.alive) s.pumps i p
            (Pump.mk p.produced [] p.fails false) hj halT rfl
          refine ⟨?_, ?_, ?_, ?_, ?_, ?_, ?_, ?_, ?_, ?_⟩
          · show s.inputCount - 1 = ((s.pumps.set i
              (Pump.mk p.produced [] p.fails false)).filter (fun p => p.alive)).length
            rw [hI.count_eq] at hcount_pos ⊢
            omega
          · intro _; exact hz
          · intro h
            exact absurd (show true = false from h) (by simp)
          · intro _
            exact ⟨s.hist, rfl, hI.no_sig hsf⟩
          · intro q hq
            show q.produced.Sublist (itemsOf (s.hist ++ [Msg.stopSig]))
            rw [itemsOf_sig_append]
            rcases List.mem_or_eq_of_mem_set hq with hmem | rfl
            · exact hI.prod_sub q hmem
            · exact hI.prod_sub p hpmem
          · show (List.map (fun q => q.produced ++ q.remaining)
              (s.pumps.set i (Pump.mk p.produced [] p.fails false))) = prods
            rw [List.map_set]
            show (List.map (fun q => q.produced ++ q.remaining) s.pumps).set i
              (p.produced ++ []) = prods
            have hfp2 : p.produced ++ ([] : List α) = p.produced ++ p.remaining := by
              rw [hrem]
            rw [hfp2, set_getElem_self _ _ _ hjm]
            exact hI.prod_orig
          · intro q hq
            rcases List.mem_or_eq_of_mem_set hq with hmem | rfl
            · exact hI.no_fail q hmem
            · exact hf
          · intro q hq hdead
            rcases List.mem_or_eq_of_mem_set hq with hmem | rfl
            · exact hI.dead_done q hmem hdead
            · rfl
          · intro d' hd' hterm
            obtain ⟨d, hd, rfl⟩ := List.mem_map.mp hd'
            by_cases hdr : d.registered = true
            · rw [if_pos hdr] at hterm ⊢
              have hdt : d.terminated = false := hterm
              obtain ⟨hreg, henq, hpos, hnosig⟩ := hI.chan_live d hd hdt
              refine ⟨hreg, ?_, ?_, ?_⟩
              · show d.enq ++ [Msg.stopSig] = s.hist ++ [Msg.stopSig]
                rw [henq]
              · show d.pos ≤ (d.enq ++ [Msg.stopSig]).length
                simp only [List.length_append]; omega
              · show Msg.stopSig ∉ (d.enq ++ [Msg.stopSig]).take d.pos
                rw [List.take_append_of_le_length hpos]
                exact hnosig
            · rw [if_neg hdr] at hterm ⊢
              have hdt : d.terminated = false := hterm
              obtain ⟨hreg, _, _, _⟩ := hI.chan_live d hd hdt
              exact absurd hreg hdr
          · intro d' hd' hterm
            obtain ⟨d, hd, rfl⟩ := List.mem_map.mp hd'
            have hdt : d.terminated = true := by
              by_cases hdr : d.registered = true
              · rw [if_pos hdr] at hterm; exact hterm
              · rw [if_neg hdr] at hterm; exact hterm
            exact absurd (hI.chan_done d hd hdt).2 (by omega)
        · have hstep : pumpStep i s =
              Mux.mk s.stopFlag (s.inputCount - 1)
                (s.pumps.set i (Pump.mk p.produced [] p.fails false))
                s.channels s.hist := by
            simp [pumpStep, hj, hrem, halT, hf, finishEpilogue, hz, setPump]
          rw [hstep]
          refine ⟨?_, ?_, ?_, ?_, ?_, ?_, ?_, ?_, ?_, ?_⟩
          · show s.inputCount - 1 = ((s.pumps.set i
              (Pump.mk p.produced [] p.fails false)).filter (fun p => p.alive)).length
            have hdec := filter_length_set_dec (fun q : Pump α => q.alive) s.pumps i p
              (Pump.mk p.produced [] p.fails false) hj halT rfl
            rw [hI.count_eq] at hcount_pos ⊢
            omega
          · intro h
            exact absurd (show s.stopFlag = true from h) (by rw [hsf]; simp)
          · intro _
            exact hI.no_sig hsf
          · intro h
            exact absurd (show s.stopFlag = true from h) (by rw [hsf]; simp)
          · intro q hq
            rcases List.mem_or_eq_of_mem_set hq with hmem | rfl
            · exact hI.prod_sub q hmem
            · exact hI.prod_sub p hpmem
          · show (List.map (fun q => q.produced ++ q.remaining)
              (s.pumps.set i (Pump.mk p.produced [] p.fails false))) = prods
            rw [List.map_set]
            show (List.map (fun q => q.produced ++ q.remaining) s.pumps).set i
              (p.produced ++ []) = prods
            have hfp2 : p.produced ++ ([] : List α) = p.produced ++ p.remaining := by
              rw [hrem]
            rw [hfp2, set_getElem_self _ _ _ hjm]
            exact hI.prod_orig
          · intro q hq
            rcases List.mem_or_eq_of_mem_set hq with hmem | rfl
            · exact hI.no_fail q hmem
            · exact hf
          · intro q hq hdead
            rcases List.mem_or_eq_of_mem_set hq with hmem | rfl
            · exact hI.dead_done q hmem hdead
            · rfl
          · intro d hd hterm
            exact hI.chan_live d hd hterm
          · intro d hd hterm
            exact absurd (hI.chan_done d hd hterm).2 (by omega)

/-- The invariant is maintained along any schedule of pure pump and
consumer steps. -/
theorem c1inv_run {α : Type} [DecidableEq α] {prods : List (List α)}
    (tr : List (Ev α)) (hpc : ∀ e ∈ tr, isPC e = true) {s : Mux α}
    (hI : C1Inv prods s) : C1Inv prods (run tr s) := by
  induction tr generalizing s with
  | nil => exact hI
  | cons e rest ih =>
    rw [run_cons]
    have hpce : isPC e = true := hpc e (List.mem_cons_self _ _)
    have hI' : C1Inv prods (step e s) := by
      cases e with
      | pump i => exact c1inv_pump hI i
      | consume i => exact c1inv_consume hI i
      | abort i => exact absurd hpce (by simp [isPC])
      | push a => exact absurd hpce (by simp [isPC])
      | stop => exact absurd hpce (by simp [isPC])
      | out => exact absurd hpce (by simp [isPC])
      | input l fl => exact absurd hpce (by simp [isPC])
      | outStop i => exact absurd hpce (by simp [isPC])
    exact ih (fun e he => hpc e (List.mem_cons_of_mem _ he)) hI'

/-- C1 amended.  Broadcast completeness holds for outputs registered
before any broadcast: start from inputs I and outputs O all registered on
a fresh mux before any pump runs, and let any schedule of pump and
consumer steps play out with no interleaved public call.  Once every pump
has finished and every output's consumer has terminated, every item list
of every input embeds, in its own production order, in the observed
sequence of every output. -/
theorem asyncmux_c1_broadcast_complete {α : Type} [DecidableEq α]
    (prods : List (List α)) (nouts : Nat) (tr : List (Ev α))
    (hpc : ∀ e ∈ tr, isPC e = true)
    (hdone : ∀ p ∈ (run tr (setup prods nouts)).pumps, p.alive = false)
    (hterm : ∀ c ∈ (run tr (setup prods nouts)).channels, c.terminated = true) :
    ∀ L ∈ prods, ∀ c ∈ (run tr (setup prods nouts)).channels,
      L.Sublist c.observed := by
  have hI : C1Inv prods (run tr (setup prods nouts)) :=
    c1inv_run tr hpc (c1inv_setup prods nouts)
  intro L hL c hc
  rw [← hI.prod_orig] at hL
  obtain ⟨p, hp, hfp⟩ := List.mem_map.mp hL
  have hrem : p.remaining = [] := hI.dead_done p hp (hdone p hp)
  have hprod : p.produced = L := by rw [← hfp, hrem, List.append_nil]
  have hobs := (hI.chan_done c hc (hterm c hc)).1
  show L.Sublist (itemsOf (c.enq.take c.pos))
  rw [hobs, ← hprod]
  exact hI.prod_sub p hp

/-- C1 amended witness: one input yielding 1, 2 and one output, both
registered at setup; the canonical schedule drains everything and the
output observes 1, 2. -/
theorem asyncmux_c1_broadcast_complete_witness :
    (∀ e ∈ [Ev.pump 0, Ev.pump 0, Ev.pump 0, Ev.consume 0, Ev.consume 0,
        Ev.consume 0], isPC (α := Nat) e = true) ∧
    (∀ p ∈ (run [Ev.pump 0, Ev.pump 0, Ev.pump 0, Ev.consume 0, Ev.consume 0,
        Ev.consume 0] (setup [[1, 2]] 1) : Mux Nat).pumps, p.alive = false) ∧
    (∀ c ∈ (run [Ev.pump 0, Ev.pump 0, Ev.pump 0, Ev.consume 0, Ev.consume 0,
        Ev.consume 0] (setup [[1, 2]] 1) : Mux Nat).channels, c.terminated = true) ∧
    (∀ L ∈ [[1, 2]], ∀ c ∈ (run [Ev.pump 0, Ev.pump 0, Ev.pump 0, Ev.consume 0,
        Ev.consume 0, Ev.consume 0] (setup [[1, 2]] 1) : Mux Nat).channels,
      L.Sublist c.observed) :=
  ⟨by decide, by decide, by decide,
   asyncmux_c1_broadcast_complete [[1, 2]] 1
     [Ev.pump 0, Ev.pump 0, Ev.pump 0, Ev.consume 0, Ev.consume 0, Ev.consume 0]
     (by decide) (by decide) (by decide)⟩

end AsyncMux
